import Mathlib

/-!
Verification of a browser Merkle-tree library (`src/merkle/index.ts`).

The development shallowly embeds the TypeScript source:

* `Merkle.sha256` models the platform SHA-256 primitive (`crypto.subtle.digest`)
  on byte lists (`List Nat`, each entry `< 256`).
* `Merkle.hash` models the repository's `hash` helper: UTF-8 encode, SHA-256,
  lowercase hex.
* `Merkle.MerkleNode`, `Merkle.buildLevel`, `Merkle.buildTree`, `Merkle.build`,
  `Merkle.getProof`, `Merkle.traverse`, `Merkle.verifyProof` translate the
  `MerkleTree` class method by method.

JavaScript object identity of leaf nodes (the `node === targetLeaf` test in
`generateProof`) is modelled by a `tag` field: the leaf constructed for input
index `i` carries `some i`, every other node carries `none`.
-/

namespace Merkle

/-- Truncation to a 32-bit word, the implicit arithmetic of SHA-256. -/
def w32 (n : Nat) : Nat := n % 4294967296

/-- 32-bit right rotation. -/
def rotr (s x : Nat) : Nat := w32 ((x >>> s) ||| (x <<< (32 - s)))

def choose (x y z : Nat) : Nat := (x &&& y) ^^^ ((x ^^^ 4294967295) &&& z)

def majority (x y z : Nat) : Nat := ((x &&& y) ^^^ (x &&& z)) ^^^ (y &&& z)

def ep0 (x : Nat) : Nat := rotr 2 x ^^^ rotr 13 x ^^^ rotr 22 x

def ep1 (x : Nat) : Nat := rotr 6 x ^^^ rotr 11 x ^^^ rotr 25 x

def sg0 (x : Nat) : Nat := rotr 7 x ^^^ rotr 18 x ^^^ (x >>> 3)

def sg1 (x : Nat) : Nat := rotr 17 x ^^^ rotr 19 x ^^^ (x >>> 10)

/-- The SHA-256 round constants, in decimal. -/
def K : List Nat :=
  [1116352408, 1899447441, 3049323471, 3921009573, 961987163,
   1508970993, 2453635748, 2870763221, 3624381080, 310598401,
   607225278, 1426881987, 1925078388, 2162078206, 2614888103,
   3248222580, 3835390401, 4022224774, 264347078, 604807628,
   770255983, 1249150122, 1555081692, 1996064986, 2554220882,
   2821834349, 2952996808, 3210313671, 3336571891, 3584528711,
   113926993, 338241895, 666307205, 773529912, 1294757372,
   1396182291, 1695183700, 1986661051, 2177026350, 2456956037,
   2730485921, 2820302411, 3259730800, 3345764771, 3516065817,
   3600352804, 4094571909, 275423344, 430227734, 506948616,
   659060556, 883997877, 958139571, 1322822218, 1537002063,
   1747873779, 1955562222, 2024104815, 2227730452, 2361852424,
   2428436474, 2756734187, 3204031479, 3329325298]

/-- The SHA-256 initial hash state, in decimal. -/
def H0 : List Nat :=
  [1779033703, 3144134277, 1013904242, 2773480762,
   1359893119, 2600822924, 528734635, 1541459225]

/-- Big-endian byte rendering of `v`, `k` bytes wide. -/
def beBytes : Nat → Nat → List Nat
  | 0, _ => []
  | k + 1, v => beBytes k (v / 256) ++ [v % 256]

/-- SHA-256 message padding: `0x80`, zeros to 56 mod 64, 8-byte bit length. -/
def padMessage (msg : List Nat) : List Nat :=
  msg ++ [128] ++ List.replicate ((55 + 64 - msg.length % 64) % 64) 0 ++ beBytes 8 (msg.length * 8)

/-- Group bytes into big-endian 32-bit words. -/
def toWords : List Nat → List Nat
  | b0 :: b1 :: b2 :: b3 :: rest => (((b0 * 256 + b1) * 256 + b2) * 256 + b3) :: toWords rest
  | _ => []

/-- Extend a 16-word block schedule by `k` further words. -/
def extendW : List Nat → Nat → List Nat
  | ws, 0 => ws
  | ws, k + 1 =>
    let i := ws.length
    extendW (ws ++ [w32 (sg1 (ws.getD (i - 2) 0) + ws.getD (i - 7) 0 +
                         sg0 (ws.getD (i - 15) 0) + ws.getD (i - 16) 0)]) k

/-- One SHA-256 compression round on the 8-word working state. -/
def sha256Round (st : List Nat) (ki wi : Nat) : List Nat :=
  match st with
  | [a, b, c, d, e, f, g, h] =>
    let t1 := w32 (h + ep1 e + choose e f g + ki + wi)
    let t2 := w32 (ep0 a + majority a b c)
    [w32 (t1 + t2), a, b, c, w32 (d + t1), e, f, g]
  | _ => st

/-- Compress one 64-byte block into the running hash state. -/
def compressBlock (hs : List Nat) (block : List Nat) : List Nat :=
  let ws := extendW (toWords block) 48
  let st := (K.zip ws).foldl (fun st p => sha256Round st p.1 p.2) hs
  (hs.zip st).map fun p => w32 (p.1 + p.2)

/-- SHA-256 of a byte list, as a 32-byte list.  Models the platform's
`crypto.subtle.digest('SHA-256', ·)` primitive. -/
def sha256 (msg : List Nat) : List Nat :=
  let padded := padMessage msg
  let hs := ((List.range (padded.length / 64)).map
              fun i => (padded.drop (64 * i)).take 64).foldl compressBlock H0
  (hs.map (beBytes 4)).flatten

/-- UTF-8 encoding of one character, as produced by `TextEncoder`. -/
def utf8EncodeChar (c : Char) : List Nat :=
  let n := c.toNat
  if n < 128 then [n]
  else if n < 2048 then [192 + n / 64, 128 + n % 64]
  else if n < 65536 then [224 + n / 4096, 128 + n / 64 % 64, 128 + n % 64]
  else [240 + n / 262144, 128 + n / 4096 % 64, 128 + n / 64 % 64, 128 + n % 64]

/-- UTF-8 encoding of a string (`new TextEncoder().encode(data)`). -/
def utf8Encode (s : String) : List Nat := (s.data.map utf8EncodeChar).flatten

/-- Lowercase hexadecimal digit. -/
def hexDigit (n : Nat) : Char := if n < 10 then Char.ofNat (48 + n) else Char.ofNat (87 + n)

/-- Lowercase hex rendering of a byte list
(`.map(b => b.toString(16).padStart(2, '0')).join('')`). -/
def hexEncode (bs : List Nat) : String :=
  String.mk ((bs.map fun b => [hexDigit (b / 16), hexDigit (b % 16)]).flatten)

/-- The repository's `hash` function: UTF-8 encode, SHA-256, lowercase hex. -/
def hash (data : String) : String := hexEncode (sha256 (utf8Encode data))

/-- Proof step direction: which side the sibling occupied. -/
inductive Direction : Type where
  | left : Direction
  | right : Direction
deriving DecidableEq

/-- A `MerkleProofStep`: the sibling's hash and its side. -/
structure MerkleProofStep : Type where
  siblingHash : String
  direction : Direction
deriving DecidableEq

/-- A `MerkleProof` is an ordered list of steps. -/
abbrev MerkleProof := List MerkleProofStep

/-- The error conditions of the class, named as in the specification.
`emptyInput` is `'Cannot build Merkle tree with 0 items'`, `indexOutOfRange`
is `'Invalid leaf index'`, `malformedTree` is `'Malformed tree'`. -/
inductive MerkleError : Type where
  | emptyInput : MerkleError
  | indexOutOfRange : MerkleError
  | malformedTree : MerkleError
deriving DecidableEq

/-- A `MerkleNode`: hash, optional left/right children, optional data.
The four constructors enumerate the possible child shapes, so that the
`left`/`right` fields of the TypeScript class become the `left`/`right`
accessors below.  `tag` models JavaScript object identity for the
`node === targetLeaf` comparison: the leaf built for input index `i`
carries `some i`; every node not in the leaf array carries `none`. -/
inductive MerkleNode : Type where
  | leafN (hash : String) (data : Option String) (tag : Option Nat)
  | nodeN (hash : String) (left right : MerkleNode) (data : Option String) (tag : Option Nat)
  | halfLN (hash : String) (left : MerkleNode) (data : Option String) (tag : Option Nat)
  | halfRN (hash : String) (right : MerkleNode) (data : Option String) (tag : Option Nat)
deriving DecidableEq

namespace MerkleNode

/-- The `hash` field. -/
def hash : MerkleNode → String
  | leafN h _ _ => h
  | nodeN h _ _ _ _ => h
  | halfLN h _ _ _ => h
  | halfRN h _ _ _ => h

/-- The `left` field. -/
def left : MerkleNode → Option MerkleNode
  | leafN .. => none
  | nodeN _ l _ _ _ => some l
  | halfLN _ l _ _ => some l
  | halfRN .. => none

/-- The `right` field. -/
def right : MerkleNode → Option MerkleNode
  | leafN .. => none
  | nodeN _ _ r _ _ => some r
  | halfLN .. => none
  | halfRN _ r _ _ => some r

/-- The `data` field. -/
def data : MerkleNode → Option String
  | leafN _ d _ => d
  | nodeN _ _ _ d _ => d
  | halfLN _ _ d _ => d
  | halfRN _ _ d _ => d

/-- The identity tag (model artifact, see `MerkleNode`). -/
def tag : MerkleNode → Option Nat
  | leafN _ _ t => t
  | nodeN _ _ _ _ t => t
  | halfLN _ _ _ t => t
  | halfRN _ _ _ t => t

/-- The stored `isLeaf` flag, `!left && !right` at construction time. -/
def isLeaf (n : MerkleNode) : Bool := n.left.isNone && n.right.isNone

/-- The `MerkleNode` constructor,
`new MerkleNode(hash, left, right, data)` plus the identity tag. -/
def make (hash : String) (left right : Option MerkleNode) (data : Option String)
    (tag : Option Nat) : MerkleNode :=
  match left, right with
  | none, none => leafN hash data tag
  | some l, some r => nodeN hash l r data tag
  | some l, none => halfLN hash l data tag
  | none, some r => halfRN hash r data tag

end MerkleNode

/-- One pairwise reduction pass of `buildTree`: combine nodes two at a time;
an unpaired final node is paired with `new MerkleNode(left.hash)`, a fresh
childless, dataless node carrying only the duplicated hash. -/
def buildLevel : List MerkleNode → List MerkleNode
  | [] => []
  | [x] => [MerkleNode.make (hash (x.hash ++ x.hash)) (some x)
              (some (MerkleNode.make x.hash none none none none)) none none]
  | a :: b :: rest =>
      MerkleNode.make (hash (a.hash ++ b.hash)) (some a) (some b) none none :: buildLevel rest

/-- `MerkleTree.buildTree`, with recursion fuel standing in for the
unbounded TypeScript recursion (each pass at least halves a level of two or
more nodes, so fuel `ns.length` in `buildTree` below always suffices; on an
empty level, where the TypeScript function would recurse forever, the fuel
runs out and `none` is returned — `build` never reaches that case). -/
def buildTreeAux : Nat → List MerkleNode → Option MerkleNode
  | _, [n] => some n
  | f + 1, ns => buildTreeAux f (buildLevel ns)
  | 0, _ => none

/-- `MerkleTree.buildTree nodes`: reduce levels until one node remains. -/
def buildTree (ns : List MerkleNode) : Option MerkleNode := buildTreeAux ns.length ns

/-- The leaf nodes for the input items starting at index `i`:
`new MerkleNode(hashes[i], undefined, undefined, item)`, tagged with its
position in the leaf array. -/
def mkLeavesFrom (i : Nat) : List String → List MerkleNode
  | [] => []
  | item :: rest =>
      MerkleNode.make (hash item) none none (some item) (some i) :: mkLeavesFrom (i + 1) rest

/-- The leaf array built by `MerkleTree.build`. -/
def mkLeaves (items : List String) : List MerkleNode := mkLeavesFrom 0 items

/-- One step of building `leafMap`: append this leaf to the bucket of its
hash, creating the bucket on first sight (`leafMap.get(h) ?? []`, push, set). -/
def insertLeaf (m : List (String × List MerkleNode)) (leaf : MerkleNode) :
    List (String × List MerkleNode) :=
  if m.any fun p => p.1 == leaf.hash then
    m.map fun p => if p.1 == leaf.hash then (p.1, p.2 ++ [leaf]) else p
  else m ++ [(leaf.hash, [leaf])]

/-- The `leafMap` (data hash → leaf nodes) built by `MerkleTree.build`. -/
def mkLeafMap (leaves : List MerkleNode) : List (String × List MerkleNode) :=
  leaves.foldl insertLeaf []

/-- The `MerkleTree` class fields. -/
structure MerkleTree : Type where
  root : MerkleNode
  leaves : List MerkleNode
  leafMap : List (String × List MerkleNode)
deriving DecidableEq

/-- `MerkleTree.build`: reject empty input, hash the items into leaves, build
the tree, record the leaf map.  The `none` branch restates the fuel artifact
of `buildTree`; `buildTree_isSome` below proves it unreachable. -/
def build (dataItems : List String) : Except MerkleError MerkleTree :=
  if dataItems.length = 0 then .error .emptyInput
  else
    let leaves := mkLeaves dataItems
    match buildTree leaves with
    | some root => .ok ⟨root, leaves, mkLeafMap leaves⟩
    | none => .error .emptyInput

/-- `MerkleTree.getRootHash`. -/
def getRootHash (t : MerkleTree) : String := t.root.hash

/-- `MerkleTree.getLeafHashes`. -/
def getLeafHashes (t : MerkleTree) : List String := t.leaves.map MerkleNode.hash

/-- The recursive `traverse` closure of `generateProof`, searching for the
leaf with identity `tid`: at a leaf it tests `node === targetLeaf`; at a node
missing a child it throws `Malformed tree`; otherwise it searches the left
subtree then the right, appending the sibling step on the way back up. -/
def traverse (tid : Nat) : MerkleNode → Except MerkleError (Option MerkleProof)
  | .leafN _ _ tg => .ok (if tg = some tid then some [] else none)
  | .nodeN _ l r _ _ =>
    match traverse tid l with
    | .error e => .error e
    | .ok (some s) => .ok (some (s ++ [⟨r.hash, .right⟩]))
    | .ok none =>
      match traverse tid r with
      | .error e => .error e
      | .ok (some s) => .ok (some (s ++ [⟨l.hash, .left⟩]))
      | .ok none => .ok none
  | .halfLN .. => .error .malformedTree
  | .halfRN .. => .error .malformedTree

/-- `MerkleTree.generateProof root targetLeaf`, the target leaf given by its
identity tag: run `traverse`; if the target was not found the accumulated
(empty) proof array is still returned. -/
def generateProof (root : MerkleNode) (targetTag : Nat) : Except MerkleError MerkleProof :=
  match traverse targetTag root with
  | .error e => .error e
  | .ok (some steps) => .ok steps
  | .ok none => .ok []

/-- `MerkleTree.getProof index`: bounds-check, then generate the proof for
`leaves[index]` (whose identity tag is `index`). -/
def getProof (t : MerkleTree) (index : Int) : Except MerkleError MerkleProof :=
  if index < 0 ∨ (t.leaves.length : Int) ≤ index then .error .indexOutOfRange
  else generateProof t.root index.toNat

/-- One verification step: hash the sibling onto the running hash on the
step's side. -/
def chainStep (computed : String) (s : MerkleProofStep) : String :=
  match s.direction with
  | .left => hash (s.siblingHash ++ computed)
  | .right => hash (computed ++ s.siblingHash)

/-- `MerkleTree.verifyProof data proof rootHash`: fold the steps over
`hash data` and compare with the root hash. -/
def verifyProof (data : String) (proof : MerkleProof) (rootHash : String) : Bool :=
  proof.foldl chainStep (hash data) == rootHash

/-! ### Specification-side descriptions

`levelUp`, `stepAt` and `pathProof` describe one reduction pass, one proof
step and a whole membership proof purely by index arithmetic on the list of
hashes of a level, the way the specification describes them; the bridge
theorems below prove the recursive tree walk of the source equal to them. -/

/-- One reduction pass on the hashes of a level: combine hashes two at a
time; an unpaired final hash is combined with itself. -/
def levelUp : List String → List String
  | [] => []
  | [h] => [hash (h ++ h)]
  | a :: b :: rest => hash (a ++ b) :: levelUp rest

/-- The proof step for position `p` of a level with hashes `hs`: the digest
of the other child of `p`'s parent, tagged with the side that other child
occupies.  At an unpaired last position the sibling is the duplicated hash
of `p` itself, on the right. -/
def stepAt (hs : List String) (p : Nat) : MerkleProofStep :=
  if p % 2 = 1 then ⟨hs.getD (p - 1) "", .left⟩
  else if p + 1 < hs.length then ⟨hs.getD (p + 1) "", .right⟩
  else ⟨hs.getD p "", .right⟩

/-- `pathProof` worker; the fuel dominates the number of reduction passes. -/
def pathProofAux : Nat → List String → Nat → MerkleProof
  | 0, _, _ => []
  | f + 1, hs, p =>
    if hs.length ≤ 1 then [] else stepAt hs p :: pathProofAux f (levelUp hs) (p / 2)

/-- The membership proof for leaf position `p`, described level by level:
one `stepAt` per reduction pass, from the leaf level up to the level just
below the root. -/
def pathProof (hs : List String) (p : Nat) : MerkleProof := pathProofAux hs.length hs p

/-- The specification's `VerifyProof`, modelled on its own words: digests are
raw byte sequences, each step hashes the raw concatenation of sibling digest
and running digest (sibling first when its direction is `left`), and the
result is compared with the root digest byte for byte. -/
structure SpecProofStep : Type where
  siblingDigest : List Nat
  direction : Direction

/-- The fold of the specification's `VerifyProof` over raw digests. -/
def specVerifyProof (data : String) (proof : List SpecProofStep) (rootDigest : List Nat) : Bool :=
  (proof.foldl
    (fun computed s =>
      match s.direction with
      | .left => sha256 (s.siblingDigest ++ computed)
      | .right => sha256 (computed ++ s.siblingDigest))
    (sha256 (utf8Encode data))) == rootDigest

/-- The verification chain the source actually computes, spelled out
recursively with the hash decomposed into SHA-256 over the UTF-8 bytes of
the concatenated lowercase-hex digest strings. -/
def specHexChain : String → MerkleProof → String
  | c, [] => c
  | c, s :: rest =>
    specHexChain
      (match s.direction with
       | .left => hexEncode (sha256 (utf8Encode (s.siblingHash ++ c)))
       | .right => hexEncode (sha256 (utf8Encode (c ++ s.siblingHash))))
      rest

/-- Default node used with `List.getD`. -/
def dfltNode : MerkleNode := .leafN "" none none

/-- Well-formed nodes: every internal node has both children and carries the
hash of the concatenation of its children's hashes — the invariant
`buildTree` establishes. -/
def wfNode : MerkleNode → Prop
  | .leafN .. => True
  | .nodeN h l r _ _ => h = hash (l.hash ++ r.hash) ∧ wfNode l ∧ wfNode r
  | .halfLN .. => False
  | .halfRN .. => False

/-- The hashes of the identity-tagged leaves with tag `i` inside a node, in
left-to-right order. -/
def tagHashes (i : Nat) : MerkleNode → List String
  | .leafN h _ tg => if tg = some i then [h] else []
  | .nodeN _ l r _ _ => tagHashes i l ++ tagHashes i r
  | .halfLN _ l _ _ => tagHashes i l
  | .halfRN _ r _ _ => tagHashes i r

/-- Height of a node: longest chain of children below it. -/
def MerkleNode.height : MerkleNode → Nat
  | .leafN .. => 0
  | .nodeN _ l r _ _ => 1 + max l.height r.height
  | .halfLN _ l _ _ => 1 + l.height
  | .halfRN _ r _ _ => 1 + r.height

/-! ### Structural lemmas about the reduction pass -/

theorem buildLevel_length : ∀ l : List MerkleNode, (buildLevel l).length = (l.length + 1) / 2
  | [] => rfl
  | [x] => by simp [buildLevel]
  | _ :: _ :: rest => by
    have ih := buildLevel_length rest
    simp only [buildLevel, List.length_cons, ih]
    omega

theorem buildLevel_ne_nil {l : List MerkleNode} (h : l ≠ []) : buildLevel l ≠ [] := by
  have hlen := buildLevel_length l
  intro hnil
  rw [hnil] at hlen
  cases l with
  | nil => exact h rfl
  | cons a rest => simp at hlen; omega

theorem levelUp_length : ∀ hs : List String, (levelUp hs).length = (hs.length + 1) / 2
  | [] => rfl
  | [h] => by simp [levelUp]
  | _ :: _ :: rest => by
    have ih := levelUp_length rest
    simp only [levelUp, List.length_cons, ih]
    omega

theorem buildLevel_map_hash : ∀ l : List MerkleNode,
    (buildLevel l).map MerkleNode.hash = levelUp (l.map MerkleNode.hash)
  | [] => rfl
  | [x] => by simp [buildLevel, levelUp, MerkleNode.make, MerkleNode.hash]
  | a :: b :: rest => by
    have ih := buildLevel_map_hash rest
    simp only [buildLevel, levelUp, List.map_cons, MerkleNode.make, MerkleNode.hash, ih]

theorem buildTreeAux_single : ∀ (f : Nat) (x : MerkleNode), buildTreeAux f [x] = some x
  | 0, _ => rfl
  | _ + 1, _ => rfl

theorem buildTreeAux_cons2 (f : Nat) (a b : MerkleNode) (rest : List MerkleNode) :
    buildTreeAux (f + 1) (a :: b :: rest) = buildTreeAux f (buildLevel (a :: b :: rest)) := rfl

/-- The fuel of `buildTreeAux` is irrelevant once it is at least the number
of reduction passes; in particular `buildTree`'s choice always suffices. -/
theorem buildTreeAux_fuel : ∀ (n : Nat) (l : List MerkleNode) (f : Nat),
    l.length ≤ n + 1 → l ≠ [] → l.length ≤ f + 1 →
    buildTreeAux f l = buildTreeAux l.length l := by
  intro n
  induction n with
  | zero =>
    intro l f hn hne _
    match l, hn with
    | [x], _ => rw [buildTreeAux_single, buildTreeAux_single]
  | succ n ih =>
    intro l f hn hne hf
    match l with
    | [x] => rw [buildTreeAux_single, buildTreeAux_single]
    | a :: b :: rest =>
      have h2 : (a :: b :: rest).length = rest.length + 2 := by simp
      have hlev : (buildLevel (a :: b :: rest)).length = (rest.length + 3) / 2 := by
        rw [buildLevel_length, h2]
      have hne' : buildLevel (a :: b :: rest) ≠ [] := buildLevel_ne_nil (by simp)
      rw [h2] at hn hf
      obtain ⟨g, rfl⟩ : ∃ g, f = g + 1 := ⟨f - 1, by omega⟩
      show buildTreeAux (g + 1) (a :: b :: rest) = buildTreeAux (a :: b :: rest).length _
      rw [h2, buildTreeAux_cons2 g, buildTreeAux_cons2 (rest.length + 1)]
      rw [ih _ g (by omega) hne' (by omega), ih _ (rest.length + 1) (by omega) hne' (by omega)]

/-- Unfolding `buildTree` over one reduction pass. -/
theorem buildTree_step {l : List MerkleNode} (h : 2 ≤ l.length) :
    buildTree l = buildTree (buildLevel l) := by
  match l, h with
  | a :: b :: rest, _ =>
    have h2 : (a :: b :: rest).length = rest.length + 2 := by simp
    have hlev : (buildLevel (a :: b :: rest)).length = (rest.length + 3) / 2 := by
      rw [buildLevel_length, h2]
    have hne' : buildLevel (a :: b :: rest) ≠ [] := buildLevel_ne_nil (by simp)
    show buildTreeAux (a :: b :: rest).length _ = buildTree _
    rw [h2, buildTreeAux_cons2 (rest.length + 1), buildTree]
    exact buildTreeAux_fuel (buildLevel (a :: b :: rest)).length _ _ (by omega) hne' (by omega)

theorem buildTree_isSome : ∀ (l : List MerkleNode), l ≠ [] → ∃ t, buildTree l = some t := by
  have key : ∀ (n : Nat) (l : List MerkleNode), l.length ≤ n → l ≠ [] →
      ∃ t, buildTree l = some t := by
    intro n
    induction n with
    | zero => intro l hn hne; cases l with
      | nil => exact absurd rfl hne
      | cons a rest => simp at hn
    | succ n ih =>
      intro l hn hne
      match l with
      | [x] => exact ⟨x, buildTreeAux_single 1 x⟩
      | a :: b :: rest =>
        rw [buildTree_step (by simp)]
        refine ih _ ?_ (buildLevel_ne_nil (by simp))
        rw [buildLevel_length]
        simp at hn ⊢
        omega
  exact fun l => key l.length l le_rfl

theorem pathProofAux_zero_of_le_one {hs : List String} {f p : Nat} (h : hs.length ≤ 1) :
    pathProofAux f hs p = [] := by
  cases f with
  | zero => rfl
  | succ f => simp [pathProofAux, h]

/-- Fuel irrelevance for `pathProofAux`, analogous to `buildTreeAux_fuel`. -/
theorem pathProofAux_fuel : ∀ (n : Nat) (hs : List String) (f p : Nat),
    hs.length ≤ n + 1 → hs.length ≤ f + 1 →
    pathProofAux f hs p = pathProofAux hs.length hs p := by
  intro n
  induction n with
  | zero =>
    intro hs f p hn _
    rw [pathProofAux_zero_of_le_one hn, pathProofAux_zero_of_le_one hn]
  | succ n ih =>
    intro hs f p hn hf
    by_cases h1 : hs.length ≤ 1
    · rw [pathProofAux_zero_of_le_one h1, pathProofAux_zero_of_le_one h1]
    · have hlev : (levelUp hs).length = (hs.length + 1) / 2 := levelUp_length hs
      obtain ⟨g, rfl⟩ : ∃ g, f = g + 1 := ⟨f - 1, by omega⟩
      obtain ⟨m, hm⟩ : ∃ m, hs.length = m + 1 := ⟨hs.length - 1, by omega⟩
      show pathProofAux (g + 1) hs p = pathProofAux hs.length hs p
      rw [hm]
      simp only [pathProofAux, if_neg h1]
      rw [ih _ g _ (by omega) (by omega), ih _ m _ (by omega) (by omega)]

/-- Unfolding `pathProof` over one reduction pass. -/
theorem pathProof_step {hs : List String} (p : Nat) (h : 2 ≤ hs.length) :
    pathProof hs p = stepAt hs p :: pathProof (levelUp hs) (p / 2) := by
  obtain ⟨m, hm⟩ : ∃ m, hs.length = m + 1 := ⟨hs.length - 1, by omega⟩
  rw [pathProof, hm]
  simp only [pathProofAux, if_neg (by omega : ¬ hs.length ≤ 1)]
  rw [pathProof]
  exact congrArg _ (pathProofAux_fuel hs.length _ _ _ (by rw [levelUp_length]; omega)
    (by rw [levelUp_length]; omega))

theorem pathProof_of_length_one {hs : List String} (p : Nat) (h : hs.length = 1) :
    pathProof hs p = [] := pathProofAux_zero_of_le_one (by omega)

/-! ### Positional description of one reduction pass -/

theorem getD_map {α β : Type} (f : α → β) (l : List α) (k : Nat) (d : β) (d' : α)
    (h : k < l.length) : (l.map f).getD k d = f (l.getD k d') := by
  rw [List.getD_eq_getElem l d' h, List.getD_eq_getElem (l.map f) d (by simpa using h),
    List.getElem_map]

/-- The node at position `j` of a reduction pass: the pair `(2j, 2j+1)` of
the level below, or the unpaired last node with its synthetic sibling. -/
theorem buildLevel_getD : ∀ (l : List MerkleNode) (j : Nat), 2 * j < l.length →
    (buildLevel l).getD j dfltNode =
      if 2 * j + 1 < l.length then
        .nodeN (hash ((l.getD (2 * j) dfltNode).hash ++ (l.getD (2 * j + 1) dfltNode).hash))
          (l.getD (2 * j) dfltNode) (l.getD (2 * j + 1) dfltNode) none none
      else
        .nodeN (hash ((l.getD (2 * j) dfltNode).hash ++ (l.getD (2 * j) dfltNode).hash))
          (l.getD (2 * j) dfltNode) (.leafN (l.getD (2 * j) dfltNode).hash none none) none none
  | [], j, h => by simp at h
  | [x], 0, _ => by simp [buildLevel, MerkleNode.make]
  | [x], j + 1, h => by simp at h
  | a :: b :: rest, 0, _ => by simp [buildLevel, MerkleNode.make]
  | a :: b :: rest, j + 1, h => by
    have h' : 2 * j < rest.length := by simp at h; omega
    have ih := buildLevel_getD rest j h'
    have hidx : 2 * (j + 1) = 2 * j + 2 := by omega
    simp only [buildLevel, hidx, List.getD_cons_succ, List.length_cons]
    rw [ih]
    by_cases hc : 2 * j + 1 < rest.length
    · rw [if_pos hc, if_pos (by omega)]
    · rw [if_neg hc, if_neg (by omega)]

theorem buildLevel_wf {l : List MerkleNode} (h : ∀ x ∈ l, wfNode x) :
    ∀ y ∈ buildLevel l, wfNode y := by
  induction l using Merkle.buildLevel.induct with
  | case1 => simp [buildLevel]
  | case2 x =>
    intro y hy
    simp [buildLevel, MerkleNode.make] at hy
    subst hy
    exact ⟨rfl, h x (by simp), trivial⟩
  | case3 a b rest ih =>
    intro y hy
    simp only [buildLevel, MerkleNode.make, List.mem_cons] at hy
    rcases hy with rfl | hy
    · exact ⟨rfl, h a (by simp), h b (by simp)⟩
    · exact ih (fun x hx => h x (by simp [hx])) y hy

/-- A reduction pass does not change the flattened tagged-leaf hashes. -/
theorem tagHashes_buildLevel (i : Nat) : ∀ l : List MerkleNode,
    ((buildLevel l).map (tagHashes i)).flatten = (l.map (tagHashes i)).flatten
  | [] => rfl
  | [x] => by simp [buildLevel, MerkleNode.make, tagHashes]
  | a :: b :: rest => by
    have ih := tagHashes_buildLevel i rest
    simp only [buildLevel, MerkleNode.make, List.map_cons, List.flatten_cons, tagHashes, ih]
    simp

theorem tagHashes_buildTree {i : Nat} : ∀ (l : List MerkleNode) (t : MerkleNode), l ≠ [] →
    buildTree l = some t → tagHashes i t = (l.map (tagHashes i)).flatten := by
  have key : ∀ (n : Nat) (l : List MerkleNode) (t : MerkleNode), l.length ≤ n → l ≠ [] →
      buildTree l = some t → tagHashes i t = (l.map (tagHashes i)).flatten := by
    intro n
    induction n with
    | zero => intro l t hn hne; cases l with
      | nil => exact absurd rfl hne
      | cons a rest => simp at hn
    | succ n ih =>
      intro l t hn hne hbt
      match l with
      | [x] =>
        rw [buildTree, buildTreeAux_single] at hbt
        cases hbt
        simp
      | a :: b :: rest =>
        rw [buildTree_step (by simp)] at hbt
        rw [ih _ t (by rw [buildLevel_length]; simp at hn ⊢; omega)
          (buildLevel_ne_nil (by simp)) hbt]
        exact tagHashes_buildLevel i _
  exact fun l t hne hbt => key l.length l t le_rfl hne hbt

/-! ### The recursive traversal -/

/-- `traverse` only ever throws `Malformed tree`. -/
theorem traverse_error_malformed {i : Nat} : ∀ (n : MerkleNode) (e : MerkleError),
    traverse i n = .error e → e = .malformedTree := by
  intro n
  induction n with
  | leafN h d tg => intro e he; simp [traverse] at he
  | nodeN h l r d tg ihl ihr =>
    intro e he
    rw [traverse] at he
    cases hl : traverse i l with
    | error a => rw [hl] at he; cases he; exact ihl _ hl
    | ok o =>
      cases o with
      | some s => rw [hl] at he; simp at he
      | none =>
        rw [hl] at he
        cases hr : traverse i r with
        | error a => rw [hr] at he; cases he; exact ihr _ hr
        | ok o' => cases o' <;> rw [hr] at he <;> simp at he
  | halfLN h l d tg ih => intro e he; rw [traverse] at he; cases he; rfl
  | halfRN h r d tg ih => intro e he; rw [traverse] at he; cases he; rfl

/-- On a well-formed subtree holding no leaf tagged `i`, `traverse` reports
"not found". -/
theorem traverse_not_found {i : Nat} : ∀ (n : MerkleNode), wfNode n →
    tagHashes i n = [] → traverse i n = .ok none := by
  intro n
  induction n with
  | leafN h d tg =>
    intro _ htag
    rw [tagHashes] at htag
    rw [traverse]
    by_cases hcase : tg = some i
    · rw [if_pos hcase] at htag; cases htag
    · rw [if_neg hcase]
  | nodeN h l r d tg ihl ihr =>
    intro hwf htag
    rw [tagHashes, List.append_eq_nil] at htag
    rw [traverse, ihl hwf.2.1 htag.1, ihr hwf.2.2 htag.2]
  | halfLN h l d tg ih => intro hwf; cases hwf
  | halfRN h r d tg ih => intro hwf; cases hwf

/-- On a well-formed subtree holding a leaf tagged `i`, `traverse` finds one
and the returned steps chain that leaf's hash up to the subtree's hash. -/
theorem traverse_found {i : Nat} : ∀ (n : MerkleNode), wfNode n →
    tagHashes i n ≠ [] → ∃ (s : MerkleProof) (h₀ : String),
      traverse i n = .ok (some s) ∧ h₀ ∈ tagHashes i n ∧
      List.foldl chainStep h₀ s = n.hash := by
  intro n
  induction n with
  | leafN h d tg =>
    intro _ htag
    rw [tagHashes] at htag
    by_cases hcase : tg = some i
    · refine ⟨[], h, ?_, ?_, rfl⟩
      · rw [traverse, if_pos hcase]
      · rw [tagHashes, if_pos hcase]; simp
    · rw [if_neg hcase] at htag; exact absurd rfl htag
  | nodeN h l r d tg ihl ihr =>
    intro hwf htag
    obtain ⟨hwfh, hwfl, hwfr⟩ := hwf
    by_cases hl : tagHashes i l = []
    · have hr : tagHashes i r ≠ [] := by
        rw [tagHashes, hl] at htag; simpa using htag
      obtain ⟨s, h₀, hts, hmem, hfold⟩ := ihr hwfr hr
      refine ⟨s ++ [⟨l.hash, .left⟩], h₀, ?_, ?_, ?_⟩
      · rw [traverse, traverse_not_found l hwfl hl, hts]
      · rw [tagHashes]; exact List.mem_append_right _ hmem
      · rw [List.foldl_append, hfold]
        simp [chainStep, MerkleNode.hash, hwfh]
    · obtain ⟨s, h₀, hts, hmem, hfold⟩ := ihl hwfl hl
      refine ⟨s ++ [⟨r.hash, .right⟩], h₀, ?_, ?_, ?_⟩
      · rw [traverse, hts]
      · rw [tagHashes]; exact List.mem_append_left _ hmem
      · rw [List.foldl_append, hfold]
        simp [chainStep, MerkleNode.hash, hwfh]
  | halfLN h l d tg ih => intro hwf; cases hwf
  | halfRN h r d tg ih => intro hwf; cases hwf

theorem hash_leafN (h : String) (d : Option String) (tg : Option Nat) :
    (MerkleNode.leafN h d tg).hash = h := rfl

/-! ### The leaf array -/

theorem getD_mem {α : Type} {l : List α} {k : Nat} (d : α) (h : k < l.length) :
    l.getD k d ∈ l := by
  rw [List.getD_eq_getElem l d h]
  exact List.getElem_mem h

theorem mkLeavesFrom_length : ∀ (items : List String) (i : Nat),
    (mkLeavesFrom i items).length = items.length
  | [], _ => rfl
  | item :: rest, i => by
    simp [mkLeavesFrom, mkLeavesFrom_length rest]

theorem mkLeavesFrom_getD : ∀ (items : List String) (i q : Nat), q < items.length →
    (mkLeavesFrom i items).getD q dfltNode =
      .leafN (hash (items.getD q "")) (some (items.getD q "")) (some (i + q))
  | [], _, q, h => by simp at h
  | item :: rest, i, 0, _ => by simp [mkLeavesFrom, MerkleNode.make]
  | item :: rest, i, q + 1, h => by
    have ih := mkLeavesFrom_getD rest (i + 1) q (by simp at h; omega)
    simp only [mkLeavesFrom, MerkleNode.make, List.getD_cons_succ]
    rw [ih]
    have harith : i + 1 + q = i + (q + 1) := by omega
    rw [harith]

theorem mkLeavesFrom_wf : ∀ (items : List String) (i : Nat), ∀ x ∈ mkLeavesFrom i items, wfNode x
  | [], _ => by simp [mkLeavesFrom]
  | item :: rest, i => by
    intro x hx
    simp only [mkLeavesFrom, MerkleNode.make, List.mem_cons] at hx
    rcases hx with rfl | hx
    · trivial
    · exact mkLeavesFrom_wf rest (i + 1) x hx

theorem mkLeavesFrom_map_hash : ∀ (items : List String) (i : Nat),
    (mkLeavesFrom i items).map MerkleNode.hash = items.map hash
  | [], _ => rfl
  | item :: rest, i => by
    simp only [mkLeavesFrom, MerkleNode.make, List.map_cons, MerkleNode.hash,
      mkLeavesFrom_map_hash rest]

theorem mkLeaves_length (items : List String) : (mkLeaves items).length = items.length :=
  mkLeavesFrom_length items 0

theorem mkLeaves_getD (items : List String) (q : Nat) (h : q < items.length) :
    (mkLeaves items).getD q dfltNode =
      .leafN (hash (items.getD q "")) (some (items.getD q "")) (some q) := by
  have := mkLeavesFrom_getD items 0 q h
  simpa using this

/-! ### Flatten helpers -/

theorem flatten_nil_of_all_nil : ∀ (l : List (List String)),
    (∀ q, q < l.length → l.getD q [] = []) → l.flatten = []
  | [], _ => rfl
  | x :: xs, h => by
    have h0 := h 0 (by simp)
    simp only [List.getD_cons_zero] at h0
    simp only [List.flatten_cons, h0, List.nil_append]
    exact flatten_nil_of_all_nil xs fun q hq => h (q + 1) (by simp; omega)

theorem flatten_singleton {hv : String} : ∀ (l : List (List String)) (p : Nat), p < l.length →
    (∀ q, q < l.length → l.getD q [] = if q = p then [hv] else []) → l.flatten = [hv]
  | [], p, hp, _ => by simp at hp
  | x :: xs, 0, _, h => by
    have h0 := h 0 (by simp)
    simp only [List.getD_cons_zero, if_pos rfl] at h0
    simp only [List.flatten_cons, h0]
    rw [flatten_nil_of_all_nil xs fun q hq => ?_]
    · simp
    · have := h (q + 1) (by simp; omega)
      simpa using this
  | x :: xs, p + 1, hp, h => by
    have h0 := h 0 (by simp)
    simp only [List.getD_cons_zero, if_neg (by omega : ¬ (0 : Nat) = p + 1)] at h0
    simp only [List.flatten_cons, h0, List.nil_append]
    exact flatten_singleton xs p (by simp at hp; omega)
      fun q hq => by
        have := h (q + 1) (by simp; omega)
        simpa [Nat.add_right_cancel_iff] using this

/-! ### Well-formedness of the built tree -/

theorem buildTree_wf : ∀ (l : List MerkleNode) (t : MerkleNode), l ≠ [] →
    (∀ x ∈ l, wfNode x) → buildTree l = some t → wfNode t := by
  have key : ∀ (n : Nat) (l : List MerkleNode) (t : MerkleNode), l.length ≤ n → l ≠ [] →
      (∀ x ∈ l, wfNode x) → buildTree l = some t → wfNode t := by
    intro n
    induction n with
    | zero => intro l t hn hne; cases l with
      | nil => exact absurd rfl hne
      | cons a rest => simp at hn
    | succ n ih =>
      intro l t hn hne hwf hbt
      match l with
      | [x] =>
        rw [buildTree, buildTreeAux_single] at hbt
        cases hbt
        exact hwf t (by simp)
      | a :: b :: rest =>
        rw [buildTree_step (by simp)] at hbt
        exact ih _ t (by rw [buildLevel_length]; simp at hn ⊢; omega)
          (buildLevel_ne_nil (by simp)) (buildLevel_wf hwf) hbt
  exact fun l t hne hwf hbt => key l.length l t le_rfl hne hwf hbt

/-! ### The bridge: recursive traversal equals the per-level description -/

/-- On a level `l` whose only `i`-tagged leaf lies inside `l[p]`, traversing
the tree built from `l` finds the steps inside `l[p]` followed by one
`stepAt` per reduction pass. -/
theorem traverse_buildTree : ∀ (l : List MerkleNode) (p i : Nat) (hv : String),
    (∀ x ∈ l, wfNode x) → p < l.length →
    (∀ q, q < l.length → tagHashes i (l.getD q dfltNode) = if q = p then [hv] else []) →
    ∃ (t : MerkleNode) (s₀ : MerkleProof),
      buildTree l = some t ∧
      traverse i (l.getD p dfltNode) = .ok (some s₀) ∧
      traverse i t = .ok (some (s₀ ++ pathProof (l.map MerkleNode.hash) p)) := by
  have key : ∀ (n : Nat) (l : List MerkleNode) (p i : Nat) (hv : String),
      l.length ≤ n → (∀ x ∈ l, wfNode x) → p < l.length →
      (∀ q, q < l.length → tagHashes i (l.getD q dfltNode) = if q = p then [hv] else []) →
      ∃ t s₀, buildTree l = some t ∧ traverse i (l.getD p dfltNode) = .ok (some s₀) ∧
        traverse i t = .ok (some (s₀ ++ pathProof (l.map MerkleNode.hash) p)) := by
    intro n
    induction n with
    | zero =>
      intro l p i hv hn _ hp _
      omega
    | succ n ih =>
      intro l p i hv hn hwf hp htag
      match l with
      | [x] =>
        have hp0 : p = 0 := by simp at hp; omega
        subst hp0
        have htag0 := htag 0 (by simp)
        rw [if_pos rfl] at htag0
        obtain ⟨s₀, h₀, hts, _, _⟩ :=
          traverse_found ([x].getD 0 dfltNode)
            (hwf _ (getD_mem dfltNode (by simp))) (by rw [htag0]; simp)
        refine ⟨x, s₀, buildTreeAux_single 1 x, hts, ?_⟩
        rw [pathProof_of_length_one 0 (by simp), List.append_nil]
        simpa using hts
      | a :: b :: rest =>
        have hlen : (a :: b :: rest).length = rest.length + 2 := by simp
        have hL : (buildLevel (a :: b :: rest)).length = (rest.length + 3) / 2 := by
          rw [buildLevel_length, hlen]
        rw [hlen] at hn hp
        -- the induction hypothesis applies to the next level up
        have htagL : ∀ q, q < (buildLevel (a :: b :: rest)).length →
            tagHashes i ((buildLevel (a :: b :: rest)).getD q dfltNode) =
              if q = p / 2 then [hv] else [] := by
          intro q hq
          rw [hL] at hq
          have h2q : 2 * q < (a :: b :: rest).length := by rw [hlen]; omega
          rw [buildLevel_getD _ q h2q]
          by_cases hc : 2 * q + 1 < (a :: b :: rest).length
          · rw [if_pos hc, tagHashes, htag (2 * q) (by omega), htag (2 * q + 1) (by rw [hlen]; rw [hlen] at hc; omega)]
            by_cases hqp : q = p / 2
            · subst hqp
              rcases (by omega : 2 * (p / 2) = p ∨ 2 * (p / 2) + 1 = p) with hpar | hpar
              · rw [if_pos hpar, if_neg (by omega), if_pos rfl]
                simp
              · rw [if_neg (by omega), if_pos hpar, if_pos rfl]
                simp
            · rw [if_neg (by omega), if_neg (by omega), if_neg hqp]
              simp
          · rw [if_neg hc, tagHashes, htag (2 * q) (by omega)]
            have hsyn : tagHashes i (MerkleNode.leafN
                (((a :: b :: rest).getD (2 * q) dfltNode).hash) none none) = [] := by
              simp [tagHashes]
            rw [hsyn]
            rw [hlen] at hc
            by_cases hqp : q = p / 2
            · subst hqp
              have hpeven : 2 * (p / 2) = p := by omega
              rw [if_pos hpeven, if_pos rfl]
              simp
            · rw [if_neg (by omega), if_neg hqp]
              simp
        obtain ⟨t, s₁, hbtL, hts₁, htst⟩ := ih (buildLevel (a :: b :: rest)) (p / 2) i hv
          (by rw [hL]; omega) (buildLevel_wf hwf) (by rw [hL]; omega) htagL
        -- the steps found inside level position p
        have htagp := htag p (by rw [hlen]; omega)
        rw [if_pos rfl] at htagp
        obtain ⟨s₀, h₀, hts₀, _, _⟩ := traverse_found ((a :: b :: rest).getD p dfltNode)
          (hwf _ (getD_mem dfltNode (by rw [hlen]; omega))) (by rw [htagp]; simp)
        -- identify s₁
        rw [buildLevel_getD _ (p / 2) (by rw [hlen]; omega)] at hts₁
        have hmap : ((a :: b :: rest).map MerkleNode.hash).length = rest.length + 2 := by
          simp
        have hstep : s₁ = s₀ ++ [stepAt ((a :: b :: rest).map MerkleNode.hash) p] := by
          rcases (by omega : 2 * (p / 2) = p ∨ 2 * (p / 2) + 1 = p) with hpar | hpar
          · -- p even: target is a left child
            rw [hpar] at hts₁
            have hsibstep : stepAt ((a :: b :: rest).map MerkleNode.hash) p =
                if p + 1 < (a :: b :: rest).length then
                  ⟨((a :: b :: rest).getD (p + 1) dfltNode).hash, .right⟩
                else ⟨((a :: b :: rest).getD p dfltNode).hash, .right⟩ := by
              by_cases hc : p + 1 < (a :: b :: rest).length
              · rw [if_pos hc, stepAt, if_neg (by omega : ¬ p % 2 = 1),
                  if_pos (by rw [hmap]; rw [hlen] at hc; omega)]
                rw [getD_map MerkleNode.hash _ (p + 1) _ dfltNode (by rw [hlen] at hc ⊢; omega)]
              · rw [if_neg hc, stepAt, if_neg (by omega : ¬ p % 2 = 1),
                  if_neg (by rw [hmap]; rw [hlen] at hc; omega)]
                rw [getD_map MerkleNode.hash _ p _ dfltNode (by rw [hlen]; omega)]
            by_cases hc : p + 1 < (a :: b :: rest).length
            · rw [if_pos hc] at hts₁
              simp only [traverse, hts₀, Except.ok.injEq, Option.some.injEq] at hts₁
              rw [hsibstep, if_pos hc]
              exact hts₁.symm
            · rw [if_neg hc] at hts₁
              simp only [traverse, hts₀, hash_leafN, Except.ok.injEq, Option.some.injEq] at hts₁
              rw [hsibstep, if_neg hc]
              exact hts₁.symm
          · -- p odd: target is a right child
            rw [if_pos (show 2 * (p / 2) + 1 < (a :: b :: rest).length by rw [hlen]; omega)] at hts₁
            rw [hpar] at hts₁
            have hprev : 2 * (p / 2) = p - 1 := by omega
            rw [hprev] at hts₁
            have hnf : traverse i ((a :: b :: rest).getD (p - 1) dfltNode) = .ok none :=
              traverse_not_found _ (hwf _ (getD_mem dfltNode (by rw [hlen]; omega)))
                (by rw [htag (p - 1) (by rw [hlen]; omega), if_neg (by omega)])
            simp only [traverse, hnf, hts₀, Except.ok.injEq, Option.some.injEq] at hts₁
            rw [stepAt, if_pos (by omega : p % 2 = 1),
              getD_map MerkleNode.hash _ (p - 1) _ dfltNode (by rw [hlen]; omega)]
            exact hts₁.symm
        refine ⟨t, s₀, ?_, hts₀, ?_⟩
        · rw [buildTree_step (by rw [hlen]; omega)]
          exact hbtL
        · rw [htst, hstep, buildLevel_map_hash, pathProof_step p (by rw [hmap]; omega)]
          simp [List.append_assoc]
  exact fun l p i hv => key l.length l p i hv le_rfl

/-! ### Instantiation at the leaf array of `build` -/

theorem mkLeaves_ne_nil {items : List String} (h : items ≠ []) : mkLeaves items ≠ [] := by
  intro hnil
  have := mkLeaves_length items
  rw [hnil] at this
  cases items with
  | nil => exact h rfl
  | cons a rest => simp at this

theorem build_nil : build [] = .error .emptyInput := rfl

/-- `build` on a non-empty list succeeds, with the root produced by
`buildTree` and the tagged leaf array. -/
theorem build_eq (items : List String) (hne : items ≠ []) :
    ∃ root, buildTree (mkLeaves items) = some root ∧
      build items = .ok ⟨root, mkLeaves items, mkLeafMap (mkLeaves items)⟩ := by
  obtain ⟨root, hbt⟩ := buildTree_isSome _ (mkLeaves_ne_nil hne)
  refine ⟨root, hbt, ?_⟩
  have hlen : ¬ items.length = 0 := by
    cases items with
    | nil => exact absurd rfl hne
    | cons a rest => simp
  simp only [build, hbt, if_neg hlen]

theorem build_fields {items : List String} {t : MerkleTree} (hb : build items = .ok t) :
    t.leaves = mkLeaves items ∧ buildTree (mkLeaves items) = some t.root := by
  by_cases hlen : items.length = 0
  · rw [build, if_pos hlen] at hb
    cases hb
  · simp only [build] at hb
    rw [if_neg hlen] at hb
    cases hbt : buildTree (mkLeaves items) with
    | none => rw [hbt] at hb; cases hb
    | some root =>
      rw [hbt] at hb
      cases hb
      exact ⟨rfl, rfl⟩

/-- The tag condition of the bridge holds at the leaf level. -/
theorem mkLeaves_tag_cond (items : List String) (i : Nat) (h : i < items.length) :
    ∀ q, q < (mkLeaves items).length →
      tagHashes i ((mkLeaves items).getD q dfltNode) =
        if q = i then [hash (items.getD i "")] else [] := by
  intro q hq
  rw [mkLeaves_length] at hq
  rw [mkLeaves_getD items q hq, tagHashes]
  by_cases hqi : q = i
  · subst hqi
    rw [if_pos rfl, if_pos rfl]
  · rw [if_neg (by simpa using hqi), if_neg hqi]

theorem mkLeaves_map_hash (items : List String) :
    (mkLeaves items).map MerkleNode.hash = items.map hash := mkLeavesFrom_map_hash items 0

/-- Master lemma: on a built tree, `getProof` returns exactly the per-level
path proof over the leaf hashes, and chaining the leaf's hash along that
proof reproduces the root hash. -/
theorem getProof_build (items : List String) (i : Nat) (h : i < items.length) :
    ∃ t : MerkleTree, build items = .ok t ∧
      getProof t (i : Int) = .ok (pathProof (items.map hash) i) ∧
      List.foldl chainStep (hash (items.getD i "")) (pathProof (items.map hash) i) =
        getRootHash t := by
  have hne : items ≠ [] := by
    intro hnil; rw [hnil] at h; simp at h
  obtain ⟨root, hbt, hb⟩ := build_eq items hne
  obtain ⟨t0, s₀, hbt', hts₀, htst⟩ := traverse_buildTree (mkLeaves items) i i
    (hash (items.getD i "")) (mkLeavesFrom_wf items 0) (by rw [mkLeaves_length]; omega)
    (mkLeaves_tag_cond items i h)
  rw [hbt] at hbt'
  cases hbt'
  -- the steps inside the leaf itself are empty
  rw [mkLeaves_getD items i h] at hts₀
  rw [traverse, if_pos rfl] at hts₀
  have hs₀ : s₀ = [] := by cases hts₀; rfl
  subst hs₀
  rw [mkLeaves_map_hash, List.nil_append] at htst
  refine ⟨⟨root, mkLeaves items, mkLeafMap (mkLeaves items)⟩, hb, ?_, ?_⟩
  · show getProof _ (i : Int) = _
    rw [getProof]
    rw [if_neg (by
      push_neg
      constructor
      · exact Int.natCast_nonneg i
      · show (i : Int) < ((mkLeaves items).length : Int)
        rw [mkLeaves_length]
        exact_mod_cast h)]
    show generateProof root (Int.toNat (i : Int)) = _
    rw [Int.toNat_natCast]
    rw [generateProof, htst]
  · -- fold the path proof from the leaf hash up to the root
    have hwft : wfNode root :=
      buildTree_wf _ root (mkLeaves_ne_nil hne) (mkLeavesFrom_wf items 0) hbt
    have htagt : tagHashes i root = [hash (items.getD i "")] := by
      rw [tagHashes_buildTree _ root (mkLeaves_ne_nil hne) hbt]
      refine flatten_singleton _ i (by rw [List.length_map, mkLeaves_length]; omega) ?_
      intro q hq
      rw [List.length_map] at hq
      rw [getD_map (tagHashes i) _ q [] dfltNode hq]
      exact mkLeaves_tag_cond items i h q hq
    obtain ⟨s, h₀, hts, hmem, hfold⟩ := traverse_found root hwft (by rw [htagt]; simp)
    rw [htst] at hts
    have hseq : s = pathProof (items.map hash) i := by cases hts; rfl
    rw [htagt, List.mem_singleton] at hmem
    subst hmem hseq
    exact hfold

/-! ### Out-of-range and error-shape facts for `getProof` -/

theorem getProof_oob (t : MerkleTree) (idx : Int)
    (h : idx < 0 ∨ (t.leaves.length : Int) ≤ idx) :
    getProof t idx = .error .indexOutOfRange := by
  rw [getProof, if_pos h]

theorem generateProof_error_malformed {root : MerkleNode} {tid : Nat} {e : MerkleError}
    (h : generateProof root tid = .error e) : e = .malformedTree := by
  rw [generateProof] at h
  cases ht : traverse tid root with
  | error a =>
    rw [ht] at h
    cases h
    exact traverse_error_malformed root _ ht
  | ok o =>
    cases o with
    | some s => rw [ht] at h; cases h
    | none => rw [ht] at h; cases h

theorem getProof_inrange_not_index_error (t : MerkleTree) (idx : Int)
    (h : ¬ (idx < 0 ∨ (t.leaves.length : Int) ≤ idx)) :
    getProof t idx ≠ .error .indexOutOfRange := by
  rw [getProof, if_neg h]
  intro hcontra
  cases generateProof_error_malformed hcontra

/-! ### Heights -/

theorem buildLevel_height {k : Nat} : ∀ l : List MerkleNode, (∀ x ∈ l, x.height = k) →
    ∀ y ∈ buildLevel l, y.height = k + 1
  | [], _ => by simp [buildLevel]
  | [x], h => by
    intro y hy
    simp only [buildLevel, MerkleNode.make, List.mem_singleton] at hy
    subst hy
    rw [MerkleNode.height, h x (by simp), MerkleNode.height]
    omega
  | a :: b :: rest, h => by
    intro y hy
    simp only [buildLevel, MerkleNode.make, List.mem_cons] at hy
    rcases hy with rfl | hy
    · rw [MerkleNode.height, h a (by simp), h b (by simp)]
      omega
    · exact buildLevel_height rest (fun x hx => h x (by simp [hx])) y hy

theorem buildTree_height : ∀ (l : List MerkleNode) (k : Nat) (t : MerkleNode), l ≠ [] →
    (∀ x ∈ l, x.height = k) → buildTree l = some t →
    t.height = k + Nat.clog 2 l.length := by
  have key : ∀ (n : Nat) (l : List MerkleNode) (k : Nat) (t : MerkleNode), l.length ≤ n →
      l ≠ [] → (∀ x ∈ l, x.height = k) → buildTree l = some t →
      t.height = k + Nat.clog 2 l.length := by
    intro n
    induction n with
    | zero => intro l k t hn hne; cases l with
      | nil => exact absurd rfl hne
      | cons a rest => simp at hn
    | succ n ih =>
      intro l k t hn hne hh hbt
      match l with
      | [x] =>
        rw [buildTree, buildTreeAux_single] at hbt
        cases hbt
        rw [hh t (by simp)]
        simp [Nat.clog_one_right]
      | a :: b :: rest =>
        rw [buildTree_step (by simp)] at hbt
        have hlen : (a :: b :: rest).length = rest.length + 2 := by simp
        have hres := ih (buildLevel (a :: b :: rest)) (k + 1) t
          (by rw [buildLevel_length]; simp at hn ⊢; omega)
          (buildLevel_ne_nil (by simp)) (buildLevel_height _ hh) hbt
        rw [hres, buildLevel_length, hlen]
        have hclog : Nat.clog 2 (rest.length + 2) =
            Nat.clog 2 ((rest.length + 2 + 2 - 1) / 2) + 1 := by
          rw [Nat.clog_of_two_le (by omega) (by omega)]
        rw [hclog]
        have harith : (rest.length + 2 + 2 - 1) / 2 = (rest.length + 2 + 1) / 2 := by omega
        rw [harith]
        omega
  exact fun l k t hne hh hbt => key l.length l k t le_rfl hne hh hbt

theorem mkLeavesFrom_height : ∀ (items : List String) (i : Nat),
    ∀ x ∈ mkLeavesFrom i items, x.height = 0
  | [], _ => by simp [mkLeavesFrom]
  | item :: rest, i => by
    intro x hx
    simp only [mkLeavesFrom, MerkleNode.make, List.mem_cons] at hx
    rcases hx with rfl | hx
    · rfl
    · exact mkLeavesFrom_height rest (i + 1) x hx

/-! ### Length of the path proof -/

theorem pathProof_length : ∀ (hs : List String) (p : Nat), hs ≠ [] →
    (pathProof hs p).length = Nat.clog 2 hs.length := by
  have key : ∀ (n : Nat) (hs : List String) (p : Nat), hs.length ≤ n → hs ≠ [] →
      (pathProof hs p).length = Nat.clog 2 hs.length := by
    intro n
    induction n with
    | zero => intro hs p hn hne; cases hs with
      | nil => exact absurd rfl hne
      | cons a rest => simp at hn
    | succ n ih =>
      intro hs p hn hne
      match hs with
      | [x] =>
        rw [pathProof_of_length_one p (by simp)]
        simp [Nat.clog_one_right]
      | a :: b :: rest =>
        rw [pathProof_step p (by simp)]
        have hlen : (a :: b :: rest).length = rest.length + 2 := by simp
        have hlev : (levelUp (a :: b :: rest)).length = (rest.length + 3) / 2 := by
          rw [levelUp_length, hlen]
        have hne' : levelUp (a :: b :: rest) ≠ [] := by
          intro hnil
          rw [hnil] at hlev
          simp at hlev
          omega
        rw [List.length_cons, ih _ (p / 2) (by rw [hlev]; simp at hn; omega) hne']
        rw [hlev, hlen]
        rw [Nat.clog_of_two_le (by omega) (by omega : 2 ≤ rest.length + 2)]
        have harith : (rest.length + 2 + 2 - 1) / 2 = (rest.length + 3) / 2 := by omega
        rw [harith]
  exact fun hs p hne => key hs.length hs p le_rfl hne

/-! ### Odd levels: the synthetic sibling -/

theorem getLast?_cons_of_ne_nil {α : Type} (a : α) {l : List α} (h : l ≠ []) :
    (a :: l).getLast? = l.getLast? := by
  cases l with
  | nil => exact absurd rfl h
  | cons b t => exact List.getLast?_cons_cons

/-- The last node of a reduction pass over an odd level: the unpaired final
node paired with its fresh synthetic sibling. -/
theorem buildLevel_getLast_odd : ∀ (l : List MerkleNode) (x : MerkleNode),
    l.length % 2 = 1 → l.getLast? = some x →
    (buildLevel l).getLast? = some (.nodeN (hash (x.hash ++ x.hash)) x
      (.leafN x.hash none none) none none)
  | [], x, hodd, _ => by simp at hodd
  | [y], x, _, hlast => by
    simp only [List.getLast?_singleton, Option.some.injEq] at hlast
    subst hlast
    simp [buildLevel, MerkleNode.make]
  | a :: b :: rest, x, hodd, hlast => by
    have hodd' : rest.length % 2 = 1 := by simp at hodd; omega
    have hne : rest ≠ [] := by
      intro hnil
      rw [hnil] at hodd'
      simp at hodd'
    have hlast' : rest.getLast? = some x := by
      rw [List.getLast?_cons_cons] at hlast
      rw [getLast?_cons_of_ne_nil b hne] at hlast
      exact hlast
    rw [buildLevel, getLast?_cons_of_ne_nil _ (buildLevel_ne_nil hne)]
    exact buildLevel_getLast_odd rest x hodd' hlast'

/-! ### The verification chain, recursively -/

theorem specHexChain_eq_foldl : ∀ (proof : MerkleProof) (c : String),
    specHexChain c proof = List.foldl chainStep c proof
  | [], _ => rfl
  | s :: rest, c => specHexChain_eq_foldl rest (chainStep c s)

/-! ## The claims -/

set_option maxRecDepth 1000000

/-- C1: building a tree from any items and any in-range index `i`,
`VerifyProof(items[i], Proof(i), RootDigest())` returns `true`. -/
theorem claim_C1_roundtrip (items : List String) (i : Nat) (h : i < items.length) :
    ∃ (t : MerkleTree) (pf : MerkleProof), build items = .ok t ∧
      getProof t (i : Int) = .ok pf ∧
      verifyProof (items.getD i "") pf (getRootHash t) = true := by
  obtain ⟨t, hb, hgp, hfold⟩ := getProof_build items i h
  refine ⟨t, _, hb, hgp, ?_⟩
  rw [verifyProof, hfold]
  exact beq_self_eq_true _

/-- Witness for C1 at `items = ["a","b","c"]`, `i = 2`. -/
theorem claim_C1_witness : 2 < (["a", "b", "c"] : List String).length ∧
    (∃ (t : MerkleTree) (pf : MerkleProof), build ["a", "b", "c"] = .ok t ∧
      getProof t ((2 : Nat) : Int) = .ok pf ∧
      verifyProof ((["a", "b", "c"] : List String).getD 2 "") pf (getRootHash t) = true) :=
  ⟨by decide, claim_C1_roundtrip ["a", "b", "c"] 2 (by decide)⟩

/-- C2 counterexample: the root digest of `Build(["a","b"])` differs from the
SHA-256 of the raw byte concatenation of the two 32-byte leaf digests, so the
claimed parent rule is false of the code. -/
theorem claim_C2_counterexample :
    ∃ t : MerkleTree, build ["a", "b"] = .ok t ∧
      getRootHash t ≠
        hexEncode (sha256 (sha256 (utf8Encode "a") ++ sha256 (utf8Encode "b"))) := by
  refine ⟨_, rfl, ?_⟩
  decide

/-- C2 amended: a parent digest is the SHA-256 of the UTF-8 bytes of the
concatenation of the children's lowercase-hex digest strings (left first, no
separator); for `Build(["a","b"])`, the root is
`sha256(utf8(hex(sha256("a")) ++ hex(sha256("b"))))` in hex. -/
theorem claim_C2_amended :
    (∀ (l : List MerkleNode) (j : Nat), 2 * j + 1 < l.length →
      ((buildLevel l).getD j dfltNode).hash =
        hexEncode (sha256 (utf8Encode ((l.getD (2 * j) dfltNode).hash ++
          (l.getD (2 * j + 1) dfltNode).hash)))) ∧
    (∃ t : MerkleTree, build ["a", "b"] = .ok t ∧
      getRootHash t = hexEncode (sha256 (utf8Encode (hash "a" ++ hash "b")))) := by
  constructor
  · intro l j hj
    rw [buildLevel_getD l j (by omega), if_pos hj]
    rfl
  · exact ⟨_, rfl, rfl⟩

/-- Witness for the amended C2 parent rule at a two-node level. -/
theorem claim_C2_witness :
    2 * 0 + 1 < ([dfltNode, dfltNode] : List MerkleNode).length ∧
    ((buildLevel [dfltNode, dfltNode]).getD 0 dfltNode).hash =
      hexEncode (sha256 (utf8Encode
        ((([dfltNode, dfltNode] : List MerkleNode).getD (2 * 0) dfltNode).hash ++
         (([dfltNode, dfltNode] : List MerkleNode).getD (2 * 0 + 1) dfltNode).hash))) :=
  ⟨by decide, claim_C2_amended.1 [dfltNode, dfltNode] 0 (by decide)⟩

/-- C3 counterexample: on corresponding inputs the specification's raw-digest
fold accepts while the code's `verifyProof` rejects — the code hashes the
UTF-8 bytes of concatenated hex strings, not raw digest bytes. -/
theorem claim_C3_counterexample :
    specVerifyProof "a" [⟨sha256 (utf8Encode "b"), .right⟩]
        (sha256 (sha256 (utf8Encode "a") ++ sha256 (utf8Encode "b"))) = true ∧
    verifyProof "a" [⟨hash "b", .right⟩]
        (hexEncode (sha256 (sha256 (utf8Encode "a") ++ sha256 (utf8Encode "b")))) = false := by
  refine ⟨by decide, by decide⟩

/-- C3 amended: `verifyProof` starts from the lowercase-hex digest of the
data, folds the steps in order — each step hashing the UTF-8 bytes of the
concatenated hex strings, sibling first when its direction is `left` — and
returns the boolean equality of the final hex string with the root hash; it
is a total boolean function, never an error. -/
theorem claim_C3_amended (data : String) (proof : MerkleProof) (rootHash : String) :
    verifyProof data proof rootHash =
      (specHexChain (hexEncode (sha256 (utf8Encode data))) proof == rootHash) := by
  rw [verifyProof, specHexChain_eq_foldl]
  rfl

/-- C4: `Build` fails with `EmptyInput` exactly on the empty list, and
`Proof(index)` fails with `IndexOutOfRange` exactly when `index < 0` or
`index ≥ leafCount`. -/
theorem claim_C4_error_conditions (items : List String) :
    (build items = .error .emptyInput ↔ items = []) ∧
    (∀ t : MerkleTree, build items = .ok t → ∀ idx : Int,
      (getProof t idx = .error .indexOutOfRange ↔
        (idx < 0 ∨ (items.length : Int) ≤ idx))) := by
  constructor
  · constructor
    · intro hb
      by_contra hne
      obtain ⟨root, _, hb'⟩ := build_eq items hne
      rw [hb] at hb'
      cases hb'
    · intro h
      subst h
      rfl
  · intro t hb idx
    obtain ⟨hleaves, _⟩ := build_fields hb
    have hlen : t.leaves.length = items.length := by rw [hleaves, mkLeaves_length]
    constructor
    · intro herr
      by_contra hout
      exact getProof_inrange_not_index_error t idx (by rw [hlen]; exact hout) herr
    · intro hout
      exact getProof_oob t idx (by rw [hlen]; exact hout)

/-- Witness for C4: `Build([])`, `Proof(-1)` and `Proof(leafCount)`. -/
theorem claim_C4_witness :
    build ([] : List String) = .error .emptyInput ∧
    ∃ t, build ["a"] = .ok t ∧ getProof t (-1) = .error .indexOutOfRange ∧
      getProof t 1 = .error .indexOutOfRange ∧ build ["a"] ≠ .error .emptyInput := by
  refine ⟨(claim_C4_error_conditions []).1.mpr rfl, ?_⟩
  obtain ⟨root, hbt, hb⟩ := build_eq ["a"] (by simp)
  refine ⟨_, hb, ?_, ?_, ?_⟩
  · exact ((claim_C4_error_conditions ["a"]).2 _ hb (-1)).mpr (by decide)
  · exact ((claim_C4_error_conditions ["a"]).2 _ hb 1).mpr (by decide)
  · intro hcontra
    have hnil := (claim_C4_error_conditions ["a"]).1.mp hcontra
    cases hnil

/-- C5: an odd level pairs its unpaired last node `x` with a synthetic
sibling node carrying `x`'s digest, no children, no data and no leaf
identity tag; for `Build(["a","b","c"])`, `Proof(2)` starts with sibling
digest `sha256("c")` (hex) on the right. -/
theorem claim_C5_duplication :
    (∀ (l : List MerkleNode) (x : MerkleNode), l.length % 2 = 1 →
      l.getLast? = some x →
      (buildLevel l).getLast? = some (.nodeN (hash (x.hash ++ x.hash)) x
        (.leafN x.hash none none) none none)) ∧
    (∃ (t : MerkleTree) (pf : MerkleProof), build ["a", "b", "c"] = .ok t ∧
      getProof t 2 = .ok pf ∧ pf.head? = some ⟨hash "c", .right⟩) := by
  refine ⟨buildLevel_getLast_odd, _, _, rfl, rfl, ?_⟩
  decide

/-- Witness for C5's odd-level rule at a one-node level. -/
theorem claim_C5_witness : ([dfltNode] : List MerkleNode).length % 2 = 1 ∧
    (buildLevel [dfltNode]).getLast? = some (.nodeN (hash (dfltNode.hash ++ dfltNode.hash))
      dfltNode (.leafN dfltNode.hash none none) none none) :=
  ⟨by decide, claim_C5_duplication.1 [dfltNode] dfltNode (by decide) (by decide)⟩

/-- C6: the proof for leaf `i` is exactly the per-level sibling description
`pathProof`: one step per reduction pass, ordered from the leaf level to the
level below the root, each step holding the other child's digest and that
child's side (`stepAt`); in particular the first step is the leaf's direct
sibling. -/
theorem claim_C6_proof_structure (items : List String) (i : Nat) (h : i < items.length) :
    ∃ t : MerkleTree, build items = .ok t ∧
      getProof t (i : Int) = .ok (pathProof (items.map hash) i) ∧
      (2 ≤ items.length →
        (pathProof (items.map hash) i).head? = some (stepAt (items.map hash) i)) := by
  obtain ⟨t, hb, hgp, _⟩ := getProof_build items i h
  refine ⟨t, hb, hgp, fun h2 => ?_⟩
  rw [pathProof_step i (by rw [List.length_map]; omega)]
  rfl

/-- Witness for C6 at `items = ["a","b","c"]`, `i = 1`. -/
theorem claim_C6_witness : 1 < (["a", "b", "c"] : List String).length ∧
    ∃ t : MerkleTree, build ["a", "b", "c"] = .ok t ∧
      getProof t ((1 : Nat) : Int) = .ok (pathProof ((["a", "b", "c"] : List String).map hash) 1) ∧
      (2 ≤ (["a", "b", "c"] : List String).length →
        (pathProof ((["a", "b", "c"] : List String).map hash) 1).head? =
          some (stepAt ((["a", "b", "c"] : List String).map hash) 1)) :=
  ⟨by decide, claim_C6_proof_structure ["a", "b", "c"] 1 (by decide)⟩

/-- C7: a single-item tree: the root is the sole leaf itself (it still owns
the data item), the root digest is `sha256(utf8(item))` in hex, the proof of
index 0 is empty, and the empty proof verifies. -/
theorem claim_C7_single (item : String) :
    ∃ t : MerkleTree, build [item] = .ok t ∧ t.leaves = [t.root] ∧
      t.root.data = some item ∧
      getRootHash t = hexEncode (sha256 (utf8Encode item)) ∧
      getProof t 0 = .ok [] ∧
      verifyProof item [] (getRootHash t) = true := by
  refine ⟨_, rfl, rfl, rfl, rfl, rfl, ?_⟩
  rw [verifyProof]
  exact beq_self_eq_true _

/-- C8: `Proof` fails with `MalformedTree` when the traversal meets a node
missing one child, and on every tree returned by `build` this branch is
unreachable: `getProof` never returns `MalformedTree`. -/
theorem claim_C8_malformed (items : List String) :
    (∀ (h : String) (c : MerkleNode) (d : Option String) (tg : Option Nat)
        (lvs : List MerkleNode) (m : List (String × List MerkleNode)),
        0 < lvs.length →
        getProof ⟨.halfLN h c d tg, lvs, m⟩ 0 = .error .malformedTree ∧
        getProof ⟨.halfRN h c d tg, lvs, m⟩ 0 = .error .malformedTree) ∧
    (∀ t : MerkleTree, build items = .ok t → ∀ idx : Int,
        getProof t idx ≠ .error .malformedTree) := by
  constructor
  · intro h c d tg lvs m hlen
    have hcond : ¬ ((0 : Int) < 0 ∨ ((lvs.length : Nat) : Int) ≤ 0) := by
      push_neg
      exact ⟨le_refl 0, by exact_mod_cast hlen⟩
    constructor
    · rw [getProof, if_neg hcond]
      rfl
    · rw [getProof, if_neg hcond]
      rfl
  · intro t hb idx
    by_cases hrange : idx < 0 ∨ (t.leaves.length : Int) ≤ idx
    · rw [getProof_oob t idx hrange]
      simp
    · push_neg at hrange
      obtain ⟨hge, hlt⟩ := hrange
      obtain ⟨hleaves, _⟩ := build_fields hb
      have hi : idx.toNat < items.length := by
        rw [hleaves, mkLeaves_length] at hlt
        omega
      obtain ⟨t', hb', hgp, _⟩ := getProof_build items idx.toNat hi
      rw [hb] at hb'
      cases hb'
      have hidx : ((idx.toNat : Nat) : Int) = idx := Int.toNat_of_nonneg hge
      rw [← hidx, hgp]
      simp

/-- Witness for C8 at a hand-made half tree and at `Build(["a"])`. -/
theorem claim_C8_witness :
    (0 < ([dfltNode] : List MerkleNode).length ∧
      getProof ⟨.halfLN "" dfltNode none none, [dfltNode], []⟩ 0 = .error .malformedTree) ∧
    ∃ t, build ["a"] = .ok t ∧ getProof t 0 ≠ .error .malformedTree := by
  refine ⟨⟨by decide,
    ((claim_C8_malformed ["a"]).1 "" dfltNode none none [dfltNode] [] (by decide)).1⟩, ?_⟩
  obtain ⟨root, hbt, hb⟩ := build_eq ["a"] (by simp)
  exact ⟨_, hb, (claim_C8_malformed ["a"]).2 _ hb 0⟩

/-- C9: for more than one item, the height of the built tree — the number of
reduction passes from the leaves to the root — is exactly `⌈log₂ n⌉`. -/
theorem claim_C9_height (items : List String) (h : 1 < items.length) :
    ∃ t : MerkleTree, build items = .ok t ∧
      t.root.height = Nat.clog 2 items.length := by
  have hne : items ≠ [] := by
    intro hnil
    rw [hnil] at h
    simp at h
  obtain ⟨root, hbt, hb⟩ := build_eq items hne
  refine ⟨_, hb, ?_⟩
  show root.height = _
  have hh := buildTree_height (mkLeaves items) 0 root (mkLeaves_ne_nil hne)
    (mkLeavesFrom_height items 0) hbt
  rw [hh, mkLeaves_length]
  omega

/-- Witness for C9 at three items. -/
theorem claim_C9_witness : 1 < (["a", "b", "c"] : List String).length ∧
    ∃ t : MerkleTree, build ["a", "b", "c"] = .ok t ∧
      t.root.height = Nat.clog 2 (["a", "b", "c"] : List String).length :=
  ⟨by decide, claim_C9_height ["a", "b", "c"] (by decide)⟩

/-- C10: on a tree over `n` items every proof has the same length
`⌈log₂ n⌉` (in particular `0` when `n = 1`, since `Nat.clog 2 1 = 0`). -/
theorem claim_C10_uniform_length (items : List String) (i : Nat) (h : i < items.length) :
    ∃ (t : MerkleTree) (pf : MerkleProof), build items = .ok t ∧
      getProof t (i : Int) = .ok pf ∧ pf.length = Nat.clog 2 items.length := by
  have hne : items ≠ [] := by
    intro hnil
    rw [hnil] at h
    simp at h
  obtain ⟨t, hb, hgp, _⟩ := getProof_build items i h
  refine ⟨t, _, hb, hgp, ?_⟩
  rw [pathProof_length _ i (by simpa using hne), List.length_map]

/-- Witness for C10 at `items = ["a","b","c","d","e"]`, `i = 4`. -/
theorem claim_C10_witness : 4 < (["a", "b", "c", "d", "e"] : List String).length ∧
    ∃ (t : MerkleTree) (pf : MerkleProof), build ["a", "b", "c", "d", "e"] = .ok t ∧
      getProof t ((4 : Nat) : Int) = .ok pf ∧
      pf.length = Nat.clog 2 (["a", "b", "c", "d", "e"] : List String).length :=
  ⟨by decide, claim_C10_uniform_length ["a", "b", "c", "d", "e"] 4 (by decide)⟩

end Merkle
